import Mathlib

/-!
Verification of the reconciliation and merge logic of the IPO research agent
(src/main.py, function run_scraping_job, lines 107-177), together with the
record-default cleaning (lines 124-130) and the store-operation sequencing
(lines 116, 157-175).

The shallow embedding below translates the Python loop of run_scraping_job
into Lean. A record is a mapping from the twelve field names of the data
model to optional values; a value is a JSON scalar (string, integer, or
null). Python truthiness, str() conversion, lower() and strip() are embedded
explicitly. The loop can raise a KeyError (line 159 reads
ipo[Chr.quote company_name] unguarded), so it is embedded in the Except monad.
-/

/-- A loosely-typed JSON scalar value, as produced by the AI extractor and
the sheet API. -/
inductive Val where
  | str : String → Val
  | num : Int → Val
  | null : Val
deriving DecidableEq, Repr

/-- Python str() on a scalar value. -/
def py_str : Val → String
  | .str s => s
  | .num n => toString n
  | .null => "None"

/-- Python str.lower(), embedded over the character list (ASCII case
mapping, which covers every name this program handles). -/
def py_lower (s : String) : String :=
  String.mk (s.data.map Char.toLower)

/-- Python str.strip(): drop whitespace from both ends. -/
def py_strip (s : String) : String :=
  String.mk (((s.data.dropWhile Char.isWhitespace).reverse.dropWhile Char.isWhitespace).reverse)

/-- Python truthiness of an optional field value: missing, null, empty
string and numeric zero are falsy. -/
def falsy : Option Val → Bool
  | none => true
  | some .null => true
  | some (.str s) => s == ""
  | some (.num n) => n == 0

/-- An IPO record: the twelve fields of the data model, each possibly
absent. Mirrors the plain Python dicts flowing through run_scraping_job. -/
structure IpoRecord where
  company_name : Option Val := none
  symbol : Option Val := none
  ipo_date : Option Val := none
  application_open : Option Val := none
  application_close : Option Val := none
  industry : Option Val := none
  lot_size : Option Val := none
  price_band_low : Option Val := none
  price_band_high : Option Val := none
  gmp : Option Val := none
  status : Option Val := none
  notes : Option Val := none
deriving DecidableEq, Repr

/-- Lines 124-130 of src/main.py: fill the six defaulted fields when their
raw value is falsy (gmp, price_band_high, price_band_low, lot_size get 0;
industry gets "TBA"; notes gets "Details pending."). The other six fields
are untouched. -/
def clean_defaults (ipo : IpoRecord) : IpoRecord :=
  { ipo with
    gmp := if falsy ipo.gmp then some (.num 0) else ipo.gmp
    price_band_high := if falsy ipo.price_band_high then some (.num 0) else ipo.price_band_high
    price_band_low := if falsy ipo.price_band_low then some (.num 0) else ipo.price_band_low
    lot_size := if falsy ipo.lot_size then some (.num 0) else ipo.lot_size
    industry := if falsy ipo.industry then some (.str "TBA") else ipo.industry
    notes := if falsy ipo.notes then some (.str "Details pending.") else ipo.notes }

/-- Line 119 / line 132: str(row.get(company_name, empty)).lower().strip(). -/
def name_key (r : IpoRecord) : String :=
  py_strip (py_lower (py_str (r.company_name.getD (.str ""))))

/-- Python str(d.get(field, default)): stringify the stored value, or use
the string default when the field is absent. -/
def get_str (x : Option Val) (dflt : String) : String :=
  match x with
  | some v => py_str v
  | none => dflt

/-- Lines 144-155 of src/main.py: the update trigger. Promote when the
stored price_band_high stringifies to a placeholder (0, TBA, empty) and the
new one does not, or the stored application_open stringifies to a
placeholder (TBA, empty) and the new one does not. No other field is
consulted. -/
def needs_update (existing_row ipo : IpoRecord) : Bool :=
  let old_price := get_str existing_row.price_band_high "0"
  let new_price := get_str ipo.price_band_high "0"
  let price_up := (old_price == "0" || old_price == "TBA" || old_price == "") &&
    !(new_price == "0" || new_price == "TBA" || new_price == "")
  let old_date := get_str existing_row.application_open "TBA"
  let new_date := get_str ipo.application_open "TBA"
  let date_up := (old_date == "TBA" || old_date == "") &&
    !(new_date == "TBA" || new_date == "")
  price_up || date_up

/-- The lookup dictionary keyed by normalized company name. -/
def StrMap : Type := String → Option IpoRecord

/-- Python dict assignment existing_map[k] = r. -/
def map_insert (m : StrMap) (k : String) (r : IpoRecord) : StrMap :=
  fun q => if q = k then some r else m q

/-- The empty dictionary. -/
def empty_map : StrMap := fun _ => none

/-- Line 119: the dict comprehension over the fetched sheet rows; a later
row with the same normalized name overwrites an earlier one. -/
def existing_map (current_data : List IpoRecord) : StrMap :=
  current_data.foldl (fun m row => map_insert m (name_key row) row) empty_map

/-- The mutable state of the reconciliation loop: the lookup dictionary,
the rows queued for batch insert, and the patch requests already issued
(patch target name and full request body). -/
structure RState where
  map : StrMap
  rows_to_add : List IpoRecord
  patches : List (Val × IpoRecord)

/-- One iteration of the loop body (lines 124-167): clean defaults, key the
record, then either queue it for insert and register it in the lookup, or
compare against the existing row and issue a patch carrying the whole new
record when the trigger fires. When the trigger fires and the record has no
company_name, line 159 raises a KeyError. -/
def process_record (st : RState) (ipo0 : IpoRecord) : Except String RState :=
  let ipo := clean_defaults ipo0
  let k := name_key ipo
  match st.map k with
  | none => .ok ⟨map_insert st.map k ipo, st.rows_to_add ++ [ipo], st.patches⟩
  | some existing_row =>
    if needs_update existing_row ipo then
      match ipo.company_name with
      | none => .error "KeyError: company_name"
      | some nm => .ok ⟨st.map, st.rows_to_add, st.patches ++ [(nm, ipo)]⟩
    else .ok st

/-- The for-loop over the extracted records (lines 123-167). -/
def run_loop : List IpoRecord → RState → Except String RState
  | [], st => .ok st
  | ipo :: rest, st =>
    match process_record st ipo with
    | .error e => .error e
    | .ok st2 => run_loop rest st2

/-- The reconciliation engine of run_scraping_job: from the extracted batch
and the fetched sheet rows, produce the batch-insert list and the issued
patches, or the uncaught exception. -/
def reconcile (new_ipos current_data : List IpoRecord) :
    Except String (List IpoRecord × List (Val × IpoRecord)) :=
  match run_loop new_ipos ⟨existing_map current_data, [], []⟩ with
  | .error e => .error e
  | .ok st => .ok (st.rows_to_add, st.patches)

/-- The loop again, totalized for the store-operation trace: an uncaught
exception stops processing; the state reached so far is kept and the flag
records whether the loop finished. -/
def run_total : List IpoRecord → RState → RState × Bool
  | [], st => (st, true)
  | ipo :: rest, st =>
    match process_record st ipo with
    | .error _ => (st, false)
    | .ok st2 => run_total rest st2

/-- Operations against the external store. Deletion is part of the store's
surface, so never-deleting is an expressible property of the trace. -/
inductive StoreOp where
  | read : StoreOp
  | patch : Val → IpoRecord → StoreOp
  | insert_many : List IpoRecord → StoreOp
  | delete_by_key : String → StoreOp
deriving DecidableEq, Repr

/-- Recognizer for the deletion operation. -/
def is_delete_op : StoreOp → Bool
  | .delete_by_key _ => true
  | _ => false

/-- Recognizer for a patch operation. -/
def is_patch_op : StoreOp → Bool
  | .patch _ _ => true
  | _ => false

/-- Recognizer for the batch-insert operation. -/
def is_insert_op : StoreOp → Bool
  | .insert_many _ => true
  | _ => false

/-- The store operations run_scraping_job issues, in order, when the
extractor returns new_ipos and the sheet holds current_data: nothing when
the batch is empty (line 113 returns before the sheet is read); otherwise
the read of line 116, then each patch as the loop reaches it (line 165),
then one batch insert at the end when rows accumulated and the loop
finished (lines 170-173). -/
def job_store_ops (new_ipos current_data : List IpoRecord) : List StoreOp :=
  if new_ipos.isEmpty then []
  else
    let run := run_total new_ipos ⟨existing_map current_data, [], []⟩
    [StoreOp.read] ++ run.1.patches.map (fun p => StoreOp.patch p.1 p.2) ++
      (if run.2 && !run.1.rows_to_add.isEmpty then [StoreOp.insert_many run.1.rows_to_add]
       else [])

/-- The three per-record outcomes of the loop. -/
inductive Outcome where
  | inserted : Outcome
  | patched : Outcome
  | dropped : Outcome
deriving DecidableEq, Repr

/-- The loop body again, instrumented with the branch it took. -/
def process_record_out (st : RState) (ipo0 : IpoRecord) : Except String (RState × Outcome) :=
  let ipo := clean_defaults ipo0
  let k := name_key ipo
  match st.map k with
  | none =>
    .ok (⟨map_insert st.map k ipo, st.rows_to_add ++ [ipo], st.patches⟩, .inserted)
  | some existing_row =>
    if needs_update existing_row ipo then
      match ipo.company_name with
      | none => .error "KeyError: company_name"
      | some nm => .ok (⟨st.map, st.rows_to_add, st.patches ++ [(nm, ipo)]⟩, .patched)
    else .ok (st, .dropped)

/-- The loop again, instrumented to record one outcome per input record. -/
def run_loop_out : List IpoRecord → RState → Except String (RState × List Outcome)
  | [], st => .ok (st, [])
  | ipo :: rest, st =>
    match process_record_out st ipo with
    | .error e => .error e
    | .ok (st2, o) =>
      match run_loop_out rest st2 with
      | .error e => .error e
      | .ok (st3, os) => .ok (st3, o :: os)

/-- Overwrite one field of a stored row with the field carried by a patch
body, keeping the stored value when the body omits the field. -/
def upd_field (u old : Option Val) : Option Val :=
  match u with
  | some v => some v
  | none => old

/-- Modelled from the spec: the store's patch_by_key applies the field
updates of a patch body to a row, overwriting exactly the fields the body
carries (section 6 collaborator contract; sheet rows are external to
src/main.py). -/
def merge_row (row upd : IpoRecord) : IpoRecord :=
  ⟨upd_field upd.company_name row.company_name,
   upd_field upd.symbol row.symbol,
   upd_field upd.ipo_date row.ipo_date,
   upd_field upd.application_open row.application_open,
   upd_field upd.application_close row.application_close,
   upd_field upd.industry row.industry,
   upd_field upd.lot_size row.lot_size,
   upd_field upd.price_band_low row.price_band_low,
   upd_field upd.price_band_high row.price_band_high,
   upd_field upd.gmp row.gmp,
   upd_field upd.status row.status,
   upd_field upd.notes row.notes⟩

/-- The normalized key a patch targets, from the raw name in its URL. -/
def patch_key (v : Val) : String :=
  py_strip (py_lower (py_str v))

/-- Modelled from the spec: one sheet row after the issued patches are
applied in order; a patch rewrites a row whose normalized name matches its
target key. -/
def patch_row (ps : List (Val × IpoRecord)) (row : IpoRecord) : IpoRecord :=
  ps.foldl (fun acc p => if name_key acc = patch_key p.1 then merge_row acc p.2 else acc) row

/-- Modelled from the spec: the sheet rows after the issued patches are
applied. -/
def apply_patches (rows : List IpoRecord) (ps : List (Val × IpoRecord)) : List IpoRecord :=
  rows.map (patch_row ps)

/-- The last row of the list carrying normalized name k, if any: the
binding the dict comprehension of line 119 keeps. -/
def last_keyed : List IpoRecord → String → Option IpoRecord
  | [], _ => none
  | row :: rest, k =>
    match last_keyed rest k with
    | some r => some r
    | none => if name_key row = k then some row else none

/-- The records of the batch carry pairwise distinct normalized names. -/
def distinct_keys (new_ipos : List IpoRecord) : Prop :=
  List.Pairwise (fun a b => name_key a ≠ name_key b) new_ipos

/-- The rows the loop queues for insert, described against a fixed lookup:
the cleaned records whose key the lookup does not know. -/
def ins_of (m : StrMap) (new_ipos : List IpoRecord) : List IpoRecord :=
  (new_ipos.filter (fun r => (m (name_key r)).isNone)).map clean_defaults

/-- Whether a record falls in the update branch against a fixed lookup. -/
def upd_case (m : StrMap) (r : IpoRecord) : Bool :=
  match m (name_key r) with
  | some e => needs_update e (clean_defaults r)
  | none => false

/-- The patches the loop issues, described against a fixed lookup. -/
def pat_of (m : StrMap) (new_ipos : List IpoRecord) : List (Val × IpoRecord) :=
  (new_ipos.filter (upd_case m)).map
    (fun r => ((clean_defaults r).company_name.getD (.str ""), clean_defaults r))

/-- Decidable equality for reconciliation results, so closed runs can be
checked by the decision procedure. -/
instance : DecidableEq (Except String (List IpoRecord × List (Val × IpoRecord))) :=
  fun a b =>
    match a, b with
    | .ok x, .ok y =>
      if h : x = y then .isTrue (by rw [h]) else .isFalse (by intro hc; cases hc; exact h rfl)
    | .error x, .error y =>
      if h : x = y then .isTrue (by rw [h]) else .isFalse (by intro hc; cases hc; exact h rfl)
    | .ok _, .error _ => .isFalse (by intro hc; cases hc)
    | .error _, .ok _ => .isFalse (by intro hc; cases hc)

/-! Concrete records used to settle the individual claims. -/

/-- C1: a stored row with a known gmp of 50 and a placeholder price band. -/
def c1_sheet_row : IpoRecord :=
  { company_name := some (.str "Beta"), gmp := some (.num 50),
    price_band_high := some (.num 0), application_open := some (.str "2024-01-01") }

/-- C1: a fresh extraction of Beta with a real price band and a different
known gmp. -/
def c1_new_row : IpoRecord :=
  { company_name := some (.str "Beta"), gmp := some (.num 80),
    price_band_high := some (.num 100), application_open := some (.str "2024-01-01") }

/-- C2: a stored row whose price band and open date are real but whose gmp
is the numeric placeholder. -/
def c2_sheet_row : IpoRecord :=
  { company_name := some (.str "Beta"), price_band_high := some (.num 100),
    application_open := some (.str "2024-01-01"), gmp := some (.num 0) }

/-- C2: a fresh extraction of Beta carrying a real gmp. -/
def c2_new_row : IpoRecord :=
  { company_name := some (.str "Beta"), price_band_high := some (.num 100),
    application_open := some (.str "2024-01-01"), gmp := some (.num 50) }

/-- C2 witness: a stored row with a placeholder price band. -/
def c2w_sheet_row : IpoRecord :=
  { company_name := some (.str "Delta"), price_band_high := some (.str "TBA") }

/-- C2 witness: a fresh extraction of Delta with a real price band. -/
def c2w_new_row : IpoRecord :=
  { company_name := some (.str "Delta"), price_band_high := some (.num 120) }

/-- C3: a record with no company_name at all. -/
def c3_new_row : IpoRecord :=
  { price_band_high := some (.num 100) }

/-- C4: a stored row whose company name normalizes to the empty string. -/
def c4_sheet_row : IpoRecord :=
  { company_name := some (.str ""), price_band_high := some (.num 0) }

/-- C4: a record missing company_name that promotes the price band of the
empty-keyed stored row. -/
def c4_new_row : IpoRecord :=
  { price_band_high := some (.num 100) }

/-- C4 witness: a well-formed record. -/
def c4w_row : IpoRecord :=
  { company_name := some (.str "Epsilon"), price_band_high := some (.num 75) }

/-- C5: the record with every field absent. -/
def blank_record : IpoRecord := {}

/-- C6: a stored row keyed by a whitespace-only company name, with a
placeholder open date. -/
def c6_sheet_row : IpoRecord :=
  { company_name := some (.str " "), application_open := some (.str "TBA") }

/-- C6: a record missing company_name whose open date would promote the
empty-keyed stored row. -/
def c6_new_row : IpoRecord :=
  { application_open := some (.str "2024-03-03") }

/-- C6 witness: a well-formed record. -/
def c6w_row : IpoRecord :=
  { company_name := some (.str "Zeta"), gmp := some (.num 12) }

/-- C7: a stored row with a real price band and a placeholder open date. -/
def c7_sheet_row : IpoRecord :=
  { company_name := some (.str "Acme"), price_band_high := some (.num 100),
    application_open := some (.str "TBA") }

/-- C7: a first extraction of Acme identical to the stored row. -/
def c7_first_row : IpoRecord :=
  { company_name := some (.str "Acme"), price_band_high := some (.num 100),
    application_open := some (.str "TBA") }

/-- C7: a second extraction of Acme with a real open date and no price
band. -/
def c7_second_row : IpoRecord :=
  { company_name := some (.str "Acme"), application_open := some (.str "2024-02-02") }

/-- C7 witness: a single fresh record. -/
def c7w_row : IpoRecord :=
  { company_name := some (.str "Alpha"), price_band_high := some (.num 10) }

/-- C8 witness: first Gamma record, placeholder price band. -/
def c8w_first : IpoRecord :=
  { company_name := some (.str "Gamma"), price_band_high := some (.num 0) }

/-- C8 witness: second Gamma record, real price band. -/
def c8w_second : IpoRecord :=
  { company_name := some (.str "Gamma"), price_band_high := some (.num 100) }

/-- C9 witness: a single fresh record. -/
def c9w_row : IpoRecord :=
  { company_name := some (.str "Theta"), gmp := some (.num 5) }

/-- C10 witness: a stored row with a placeholder price band. -/
def c10w_sheet_row : IpoRecord :=
  { company_name := some (.str "Beta"), price_band_high := some (.num 0) }

/-- C10 witness: a brand-new company in the batch. -/
def c10w_new_row : IpoRecord :=
  { company_name := some (.str "Gamma"), price_band_high := some (.num 90) }

/-- C10 witness: an update for Beta promoting its price band. -/
def c10w_update_row : IpoRecord :=
  { company_name := some (.str "Beta"), price_band_high := some (.num 120) }

/-! Basic lemmas about the embedded operations. -/

/-- Cleaning defaults never touches the company name. -/
theorem clean_company_name (r : IpoRecord) :
    (clean_defaults r).company_name = r.company_name := rfl

/-- Cleaning defaults never touches the open date. -/
theorem clean_application_open (r : IpoRecord) :
    (clean_defaults r).application_open = r.application_open := rfl

/-- Cleaning defaults preserves the normalized key. -/
theorem clean_name_key (r : IpoRecord) :
    name_key (clean_defaults r) = name_key r := rfl

/-- After cleaning, the price band field is always present. -/
theorem clean_price_band_high_ne_none (r : IpoRecord) :
    (clean_defaults r).price_band_high ≠ none := by
  cases h : r.price_band_high with
  | none => simp [clean_defaults, h, falsy]
  | some v =>
    simp only [clean_defaults, h]
    split <;> simp

/-- A record never triggers an update against itself. -/
theorem needs_update_self (x : IpoRecord) : needs_update x x = false := by
  simp only [needs_update]
  cases get_str x.price_band_high "0" == "0" <;>
    cases get_str x.price_band_high "0" == "TBA" <;>
      cases get_str x.price_band_high "0" == "" <;>
        cases get_str x.application_open "TBA" == "TBA" <;>
          cases get_str x.application_open "TBA" == "" <;> rfl

/-- A row that already reflects a patch body does not trigger an update
against that body again, provided the body carries a price band. -/
theorem needs_update_merge_row (e c : IpoRecord) (h : c.price_band_high ≠ none) :
    needs_update (merge_row e c) c = false := by
  cases hp : c.price_band_high with
  | none => exact absurd hp h
  | some v =>
    cases hd : c.application_open with
    | none =>
      simp [needs_update, merge_row, upd_field, get_str, hp, hd]
      tauto
    | some w =>
      simp [needs_update, merge_row, upd_field, get_str, hp, hd]
      constructor <;> tauto

/-! Counterexamples. -/

/-- Claim C1, counterexample: on a key collision where the price band
promotes, the patch sent to the store is the entire new record, so the gmp
field — not promoted, and holding the known value 50 in the store — is
carried in the update body with the different known value 80. -/
theorem c1_counterexample :
    reconcile [c1_new_row] [c1_sheet_row] =
      .ok ([], [(Val.str "Beta", clean_defaults c1_new_row)]) ∧
    c1_sheet_row.gmp = some (.num 50) ∧ falsy c1_sheet_row.gmp = false ∧
    (clean_defaults c1_new_row).gmp = some (.num 80) := by
  refine ⟨by decide, by decide, by decide, by decide⟩

/-- Claim C2, counterexample: the existing Beta row holds the numeric
placeholder 0 for gmp and the new record a real gmp of 50 — promotable per
the claim — yet the run produces no patch: the record is dropped, because
the code consults only price_band_high and application_open. -/
theorem c2_counterexample :
    reconcile [c2_new_row] [c2_sheet_row] = .ok ([], []) ∧
    c2_sheet_row.gmp = some (.num 0) ∧ c2_new_row.gmp = some (.num 50) := by
  refine ⟨by decide, by decide, by decide⟩

/-- Claim C3, counterexample: a record with no company_name — whose key
normalizes to the empty string — is not skipped: against an empty store it
is appended to the insert list. -/
theorem c3_counterexample :
    reconcile [c3_new_row] [] = .ok ([clean_defaults c3_new_row], []) ∧
    c3_new_row.company_name = none ∧
    name_key (clean_defaults c3_new_row) = "" := by
  refine ⟨by decide, by decide, by decide⟩

/-- Claim C4, counterexample: a record missing company_name that collides
with a stored empty-named row and triggers the update branch makes the
engine raise (the unguarded company_name read of line 159). -/
theorem c4_counterexample :
    reconcile [c4_new_row] [c4_sheet_row] = .error "KeyError: company_name" := by
  decide

/-- Claim C5, counterexample: cleaning the all-absent record leaves six of
the twelve fields absent — no "TBA" or other placeholder is filled in for
the dates, name, symbol or status. -/
theorem c5_counterexample :
    (clean_defaults blank_record).ipo_date = none ∧
    (clean_defaults blank_record).application_open = none ∧
    (clean_defaults blank_record).application_close = none ∧
    (clean_defaults blank_record).company_name = none ∧
    (clean_defaults blank_record).symbol = none ∧
    (clean_defaults blank_record).status = none := by
  refine ⟨rfl, rfl, rfl, rfl, rfl, rfl⟩

/-- Claim C6, counterexample: a run that raises assigns no outcome at all
to the elements of the batch — there is no result to partition. -/
theorem c6_counterexample :
    reconcile [c6_new_row] [c6_sheet_row] = .error "KeyError: company_name" ∧
    ¬ ∃ p, reconcile [c6_new_row] [c6_sheet_row] = .ok p := by
  have h0 : reconcile [c6_new_row] [c6_sheet_row] = .error "KeyError: company_name" := by
    decide
  refine ⟨h0, ?_⟩
  rintro ⟨p, hp⟩
  rw [h0] at hp
  exact Except.noConfusion hp

/-- Claim C7, counterexample: with two same-key records in one batch, the
first call patches the stored Acme row with the whole second record,
overwriting its real price band with the placeholder 0; on the stabilized
store the second call is not a no-op — it issues a fresh patch. -/
theorem c7_counterexample :
    reconcile [c7_first_row, c7_second_row] [c7_sheet_row] =
      .ok ([], [(Val.str "Acme", clean_defaults c7_second_row)]) ∧
    reconcile [c7_first_row, c7_second_row]
        (apply_patches [c7_sheet_row] [(Val.str "Acme", clean_defaults c7_second_row)] ++ []) =
      .ok ([], [(Val.str "Acme", clean_defaults c7_first_row)]) ∧
    [(Val.str "Acme", clean_defaults c7_first_row)] ≠ ([] : List (Val × IpoRecord)) := by
  refine ⟨by decide, by decide, by decide⟩

/-- The update trigger, characterized as a proposition. -/
theorem needs_update_iff (e i : IpoRecord) :
    needs_update e i = true ↔
      ((get_str e.price_band_high "0" = "0" ∨ get_str e.price_band_high "0" = "TBA" ∨
          get_str e.price_band_high "0" = "") ∧
        ¬(get_str i.price_band_high "0" = "0" ∨ get_str i.price_band_high "0" = "TBA" ∨
          get_str i.price_band_high "0" = "")) ∨
      ((get_str e.application_open "TBA" = "TBA" ∨ get_str e.application_open "TBA" = "") ∧
        ¬(get_str i.application_open "TBA" = "TBA" ∨ get_str i.application_open "TBA" = "")) := by
  simp [needs_update]
  tauto

/-- Claim C2 (amended): on a key collision a patch is issued if and only if
the stored price_band_high stringifies to a placeholder (0, TBA or empty)
while the new one does not, or the stored application_open stringifies to a
placeholder (TBA or empty) while the new one does not; no other field is
consulted, and when neither trigger fires the record is dropped with the
state unchanged. -/
theorem c2_amended (st : RState) (r ex : IpoRecord) (nm : Val)
    (hx : st.map (name_key r) = some ex)
    (hnm : r.company_name = some nm) :
    (process_record st r =
        .ok ⟨st.map, st.rows_to_add, st.patches ++ [(nm, clean_defaults r)]⟩ ↔
      ((get_str ex.price_band_high "0" = "0" ∨ get_str ex.price_band_high "0" = "TBA" ∨
          get_str ex.price_band_high "0" = "") ∧
        ¬(get_str (clean_defaults r).price_band_high "0" = "0" ∨
          get_str (clean_defaults r).price_band_high "0" = "TBA" ∨
          get_str (clean_defaults r).price_band_high "0" = "")) ∨
      ((get_str ex.application_open "TBA" = "TBA" ∨
          get_str ex.application_open "TBA" = "") ∧
        ¬(get_str (clean_defaults r).application_open "TBA" = "TBA" ∨
          get_str (clean_defaults r).application_open "TBA" = ""))) ∧
    (needs_update ex (clean_defaults r) = false → process_record st r = .ok st) := by
  have hc : (clean_defaults r).company_name = some nm := by
    rw [clean_company_name]; exact hnm
  have hk : st.map (name_key (clean_defaults r)) = some ex := by
    rw [clean_name_key]; exact hx
  constructor
  · rw [← needs_update_iff]
    constructor
    · intro heq
      by_contra hu
      have hu2 : needs_update ex (clean_defaults r) = false := by
        cases h2 : needs_update ex (clean_defaults r) with
        | true => exact absurd h2 hu
        | false => rfl
      simp only [process_record, hk, hu2, if_neg, Bool.false_eq_true, if_false] at heq
      have hpat := congrArg (fun x => match x with | .ok st2 => st2.patches | .error _ => []) heq
      simp at hpat
    · intro hu
      simp only [process_record, hk, hu, if_true, hc]
  · intro hu
    simp only [process_record, hk, hu, Bool.false_eq_true, if_false]

/-- Claim C2, witness run: Delta has a stored TBA price band and a real new
one, so the patch is issued. -/
theorem c2_witness :
    process_record ⟨existing_map [c2w_sheet_row], [], []⟩ c2w_new_row =
      .ok ⟨existing_map [c2w_sheet_row], [], [(Val.str "Delta", clean_defaults c2w_new_row)]⟩ := by
  have h := c2_amended ⟨existing_map [c2w_sheet_row], [], []⟩ c2w_new_row c2w_sheet_row
    (Val.str "Delta") (by decide) (by decide)
  exact h.1.mpr (Or.inl ⟨by decide, by decide⟩)

/-- Claim C3 (amended): a record whose company name normalizes to the empty
string is not skipped — it is processed under the empty-string key like any
other record; in particular, when the lookup has no empty-key entry it is
queued for insert and registered in the lookup. -/
theorem c3_amended (st : RState) (r : IpoRecord)
    (hk : name_key r = "")
    (hm : st.map "" = none) :
    process_record st r =
      .ok ⟨map_insert st.map "" (clean_defaults r),
           st.rows_to_add ++ [clean_defaults r], st.patches⟩ := by
  have hk2 : name_key (clean_defaults r) = "" := by rw [clean_name_key]; exact hk
  simp only [process_record, hk2, hm]

/-- Claim C3, witness run: the record with no company name is inserted into
an empty store under the empty key. -/
theorem c3_witness :
    process_record ⟨existing_map [], [], []⟩ c3_new_row =
      .ok ⟨map_insert (existing_map []) "" (clean_defaults c3_new_row),
           [clean_defaults c3_new_row], []⟩ :=
  c3_amended ⟨existing_map [], [], []⟩ c3_new_row (by decide) rfl

/-- Every record of the batch carries a company_name, so the loop finishes
without raising. -/
theorem run_loop_ok_of_named (new_ipos : List IpoRecord) :
    ∀ st : RState, (∀ r ∈ new_ipos, r.company_name ≠ none) →
      ∃ st2, run_loop new_ipos st = .ok st2 := by
  induction new_ipos with
  | nil => exact fun st _ => ⟨st, rfl⟩
  | cons r rest ih =>
    intro st h
    have hr : r.company_name ≠ none := h r (by simp)
    have hrest : ∀ x ∈ rest, x.company_name ≠ none := fun x hx => h x (by simp [hx])
    cases hm : st.map (name_key (clean_defaults r)) with
    | none =>
      obtain ⟨st2, h2⟩ := ih ⟨map_insert st.map (name_key (clean_defaults r)) (clean_defaults r),
        st.rows_to_add ++ [clean_defaults r], st.patches⟩ hrest
      exact ⟨st2, by simp only [run_loop, process_record, hm]; exact h2⟩
    | some ex =>
      cases hu : needs_update ex (clean_defaults r) with
      | false =>
        obtain ⟨st2, h2⟩ := ih st hrest
        refine ⟨st2, ?_⟩
        simp only [run_loop, process_record, hm, hu, Bool.false_eq_true, if_false]
        exact h2
      | true =>
        cases hc : (clean_defaults r).company_name with
        | none => rw [clean_company_name] at hc; exact absurd hc hr
        | some nm =>
          obtain ⟨st2, h2⟩ := ih ⟨st.map, st.rows_to_add, st.patches ++ [(nm, clean_defaults r)]⟩ hrest
          exact ⟨st2, by simp only [run_loop, process_record, hm, hu, if_true, hc]; exact h2⟩

/-- Claim C4 (amended): the engine never raises on a batch in which every
record carries a company_name; a record missing company_name is not
skipped — it is keyed under the empty string, and if it reaches the update
branch the engine raises a KeyError. -/
theorem c4_amended (new_ipos current_data : List IpoRecord)
    (h : ∀ r ∈ new_ipos, r.company_name ≠ none) :
    ∃ result, reconcile new_ipos current_data = .ok result := by
  obtain ⟨st2, h2⟩ := run_loop_ok_of_named new_ipos ⟨existing_map current_data, [], []⟩ h
  exact ⟨(st2.rows_to_add, st2.patches), by unfold reconcile; rw [h2]⟩

/-- Claim C4, witness run: a well-formed singleton batch reconciles without
raising. -/
theorem c4_witness : ∃ result, reconcile [c4w_row] [] = .ok result :=
  c4_amended [c4w_row] [] (by decide)

/-- How one defaulted field behaves under cleaning: it ends up present, the
placeholder replaces exactly the falsy values, and a truthy value is kept. -/
theorem clean_field_spec (x : Option Val) (d : Val) :
    (if falsy x then some d else x) ≠ none ∧
    (falsy x = true → (if falsy x then some d else x) = some d) ∧
    (falsy x = false → (if falsy x then some d else x) = x) := by
  cases h : falsy x with
  | true => simp [h]
  | false =>
    cases x with
    | none => simp [falsy] at h
    | some v => simp [h]

/-- Claim C5 (amended): cleaning is pure and total, but only the six
defaulted fields are guaranteed present afterwards — gmp, price_band_high,
price_band_low and lot_size get the numeric placeholder 0 when falsy,
industry gets "TBA", notes gets "Details pending." — while company_name,
symbol, ipo_date, application_open, application_close and status are passed
through unchanged, absent values included. -/
theorem c5_amended (r : IpoRecord) :
    ((clean_defaults r).gmp ≠ none ∧
      (falsy r.gmp = true → (clean_defaults r).gmp = some (.num 0)) ∧
      (falsy r.gmp = false → (clean_defaults r).gmp = r.gmp)) ∧
    ((clean_defaults r).price_band_high ≠ none ∧
      (falsy r.price_band_high = true → (clean_defaults r).price_band_high = some (.num 0)) ∧
      (falsy r.price_band_high = false → (clean_defaults r).price_band_high = r.price_band_high)) ∧
    ((clean_defaults r).price_band_low ≠ none ∧
      (falsy r.price_band_low = true → (clean_defaults r).price_band_low = some (.num 0)) ∧
      (falsy r.price_band_low = false → (clean_defaults r).price_band_low = r.price_band_low)) ∧
    ((clean_defaults r).lot_size ≠ none ∧
      (falsy r.lot_size = true → (clean_defaults r).lot_size = some (.num 0)) ∧
      (falsy r.lot_size = false → (clean_defaults r).lot_size = r.lot_size)) ∧
    ((clean_defaults r).industry ≠ none ∧
      (falsy r.industry = true → (clean_defaults r).industry = some (.str "TBA")) ∧
      (falsy r.industry = false → (clean_defaults r).industry = r.industry)) ∧
    ((clean_defaults r).notes ≠ none ∧
      (falsy r.notes = true → (clean_defaults r).notes = some (.str "Details pending.")) ∧
      (falsy r.notes = false → (clean_defaults r).notes = r.notes)) ∧
    (clean_defaults r).company_name = r.company_name ∧
    (clean_defaults r).symbol = r.symbol ∧
    (clean_defaults r).ipo_date = r.ipo_date ∧
    (clean_defaults r).application_open = r.application_open ∧
    (clean_defaults r).application_close = r.application_close ∧
    (clean_defaults r).status = r.status :=
  ⟨clean_field_spec r.gmp (.num 0), clean_field_spec r.price_band_high (.num 0),
   clean_field_spec r.price_band_low (.num 0), clean_field_spec r.lot_size (.num 0),
   clean_field_spec r.industry (.str "TBA"), clean_field_spec r.notes (.str "Details pending."),
   rfl, rfl, rfl, rfl, rfl, rfl⟩

/-- Claim C5, witness: on the all-absent record the falsy gmp is replaced
by the numeric placeholder and the absent ipo_date is passed through. -/
theorem c5_witness :
    (clean_defaults blank_record).gmp = some (.num 0) ∧
    (clean_defaults blank_record).ipo_date = blank_record.ipo_date :=
  ⟨(c5_amended blank_record).1.2.1 rfl, (c5_amended blank_record).2.2.2.2.2.2.2.2.1⟩

/-- One loop step changes the patch list by at most one entry, and that
entry carries the whole cleaned record as its body. -/
theorem process_record_patches (st : RState) (r : IpoRecord) (st1 : RState)
    (h : process_record st r = .ok st1) :
    st1.patches = st.patches ∨
      ∃ nm, st1.patches = st.patches ++ [(nm, clean_defaults r)] := by
  cases hm : st.map (name_key (clean_defaults r)) with
  | none =>
    simp only [process_record, hm] at h
    cases h
    exact Or.inl rfl
  | some ex =>
    cases hu : needs_update ex (clean_defaults r) with
    | false =>
      simp only [process_record, hm, hu, Bool.false_eq_true, if_false] at h
      cases h
      exact Or.inl rfl
    | true =>
      cases hc : (clean_defaults r).company_name with
      | none =>
        simp only [process_record, hm, hu, if_true, hc] at h
        exact Except.noConfusion h
      | some nm =>
        simp only [process_record, hm, hu, if_true, hc] at h
        cases h
        exact Or.inr ⟨nm, rfl⟩

/-- Every patch accumulated by the loop either was already in the state or
carries some input record, cleaned, as its whole body. -/
theorem run_loop_patch_bodies (new_ipos : List IpoRecord) :
    ∀ st st2, run_loop new_ipos st = .ok st2 → ∀ p ∈ st2.patches,
      p ∈ st.patches ∨ ∃ r, r ∈ new_ipos ∧ p.2 = clean_defaults r := by
  induction new_ipos with
  | nil =>
    intro st st2 h p hp
    simp only [run_loop] at h
    cases h
    exact Or.inl hp
  | cons r rest ih =>
    intro st st2 h p hp
    simp only [run_loop] at h
    cases hpr : process_record st r with
    | error e => rw [hpr] at h; exact Except.noConfusion h
    | ok st1 =>
      rw [hpr] at h
      rcases ih st1 st2 h p hp with h1 | ⟨r2, hr2, hb⟩
      · rcases process_record_patches st r st1 hpr with hs | ⟨nm, hs⟩
        · rw [hs] at h1
          exact Or.inl h1
        · rw [hs] at h1
          rcases List.mem_append.mp h1 with h2 | h2
          · exact Or.inl h2
          · simp only [List.mem_singleton] at h2
            refine Or.inr ⟨r, by simp, ?_⟩
            rw [h2]
      · exact Or.inr ⟨r2, by simp [hr2], hb⟩

/-- Claim C1 (amended): on a key collision where the trigger fires, the
update applied to the store is the entire cleaned new record — not a
projection to the promoted fields — so a known stored value can be replaced
by a different known value carried along in the body. -/
theorem c1_amended (new_ipos current_data : List IpoRecord)
    (ins : List IpoRecord) (ps : List (Val × IpoRecord))
    (h : reconcile new_ipos current_data = .ok (ins, ps)) :
    ∀ p ∈ ps, ∃ r, r ∈ new_ipos ∧ p.2 = clean_defaults r := by
  unfold reconcile at h
  cases hr : run_loop new_ipos ⟨existing_map current_data, [], []⟩ with
  | error e => rw [hr] at h; exact Except.noConfusion h
  | ok st =>
    rw [hr] at h
    injection h with h
    intro p hp
    have hps : p ∈ st.patches := by
      have : ps = st.patches := (congrArg Prod.snd h).symm
      rw [this] at hp
      exact hp
    rcases run_loop_patch_bodies new_ipos _ st hr p hps with h1 | h2
    · exact absurd h1 (List.not_mem_nil p)
    · exact h2

/-- Claim C1, witness run: the Beta patch body is the whole cleaned new
record. -/
theorem c1_witness :
    ∃ r, r ∈ [c1_new_row] ∧
      (Val.str "Beta", clean_defaults c1_new_row).2 = clean_defaults r :=
  c1_amended [c1_new_row] [c1_sheet_row] []
    [(Val.str "Beta", clean_defaults c1_new_row)] (by decide)
    (Val.str "Beta", clean_defaults c1_new_row) (by decide)

/-- Claim C8: when two records of the batch share a normalized key that the
store does not know, the first is queued for insert and immediately
registered in the lookup, and the second is not inserted — it is evaluated
against the first, now-registered record under the usual promotion
trigger, yielding either a patch against it or a drop. -/
theorem c8_same_batch_duplicate (r1 r2 : IpoRecord) (rest current_data : List IpoRecord)
    (nm2 : Val)
    (hk : name_key r2 = name_key r1)
    (habs : existing_map current_data (name_key r1) = none)
    (hnm : r2.company_name = some nm2) :
    run_loop (r1 :: r2 :: rest) ⟨existing_map current_data, [], []⟩ =
      run_loop rest
        ⟨map_insert (existing_map current_data) (name_key r1) (clean_defaults r1),
         [clean_defaults r1],
         if needs_update (clean_defaults r1) (clean_defaults r2)
         then [(nm2, clean_defaults r2)] else []⟩ := by
  have hk1 : name_key (clean_defaults r1) = name_key r1 := clean_name_key r1
  have hk2 : name_key (clean_defaults r2) = name_key r1 := by
    rw [clean_name_key]; exact hk
  have hc2 : (clean_defaults r2).company_name = some nm2 := by
    rw [clean_company_name]; exact hnm
  have hhit : map_insert (existing_map current_data) (name_key r1) (clean_defaults r1)
      (name_key (clean_defaults r2)) = some (clean_defaults r1) := by
    rw [hk2]
    simp [map_insert]
  cases hu : needs_update (clean_defaults r1) (clean_defaults r2) with
  | true =>
    simp only [run_loop, process_record, hk1, habs, hhit, hu, if_true, hc2]
    rfl
  | false =>
    simp only [run_loop, process_record, hk1, habs, hhit, hu, Bool.false_eq_true, if_false]
    rfl

/-- Claim C8, witness run: two Gamma records against an empty store — the
first is inserted and registered, the second patches against it. -/
theorem c8_witness :
    run_loop [c8w_first, c8w_second] ⟨existing_map [], [], []⟩ =
      run_loop []
        ⟨map_insert (existing_map []) (name_key c8w_first) (clean_defaults c8w_first),
         [clean_defaults c8w_first],
         if needs_update (clean_defaults c8w_first) (clean_defaults c8w_second)
         then [(Val.str "Gamma", clean_defaults c8w_second)] else []⟩ :=
  c8_same_batch_duplicate c8w_first c8w_second [] [] (Val.str "Gamma")
    (by decide) rfl rfl

/-- Claim C9: every store operation the job issues is the initial read, a
patch, or the final batch insert — a deletion is never issued, for any
batch and any store state. -/
theorem c9_no_delete (new_ipos current_data : List IpoRecord) (op : StoreOp)
    (h : op ∈ job_store_ops new_ipos current_data) :
    is_delete_op op = false := by
  unfold job_store_ops at h
  split at h
  · exact absurd h (List.not_mem_nil op)
  · dsimp only at h
    rcases List.mem_append.mp h with h1 | h2
    · rcases List.mem_append.mp h1 with h3 | h4
      · rw [List.mem_singleton.mp h3]
        rfl
      · obtain ⟨p, hp, hop⟩ := List.mem_map.mp h4
        rw [← hop]
        rfl
    · split at h2
      · rw [List.mem_singleton.mp h2]
        rfl
      · exact absurd h2 (List.not_mem_nil op)

/-- Claim C9, witness run: the read issued by a run on a singleton batch is
not a delete. -/
theorem c9_witness : is_delete_op StoreOp.read = false :=
  c9_no_delete [c9w_row] [] StoreOp.read (by decide)

/-- The read-then-patches prefix of the trace contains no batch insert. -/
theorem trace_head_no_insert (ps : List (Val × IpoRecord)) (op : StoreOp)
    (h : op ∈ [StoreOp.read] ++ ps.map (fun p => StoreOp.patch p.1 p.2)) :
    is_insert_op op = false := by
  rcases List.mem_append.mp h with h1 | h2
  · rw [List.mem_singleton.mp h1]
    rfl
  · obtain ⟨p, hp, hop⟩ := List.mem_map.mp h2
    rw [← hop]
    rfl

/-- The trailing batch insert of the trace, when present, is no patch. -/
theorem trace_tail_no_patch (c : Bool) (rows : List IpoRecord) (op : StoreOp)
    (h : op ∈ (if c then [StoreOp.insert_many rows] else [])) :
    is_patch_op op = false := by
  split at h
  · rw [List.mem_singleton.mp h]
    rfl
  · exact absurd h (List.not_mem_nil op)

/-- Claim C10: within one run the patches all precede the batch insert — a
patch at trace position i and the batch insert at trace position j satisfy
i < j, for any batch and any store state. -/
theorem c10_patch_before_insert (new_ipos current_data : List IpoRecord)
    (i j : Nat) (opi opj : StoreOp)
    (hi : (job_store_ops new_ipos current_data)[i]? = some opi)
    (hpi : is_patch_op opi = true)
    (hj : (job_store_ops new_ipos current_data)[j]? = some opj)
    (hij : is_insert_op opj = true) :
    i < j := by
  unfold job_store_ops at hi hj
  split at hi
  · rw [List.getElem?_nil] at hi
    exact Option.noConfusion hi
  · split at hj
    · rw [List.getElem?_nil] at hj
      exact Option.noConfusion hj
    · dsimp only at hi hj
      have hjlen : ([StoreOp.read] ++
          (run_total new_ipos ⟨existing_map current_data, [], []⟩).1.patches.map
            (fun p => StoreOp.patch p.1 p.2)).length ≤ j := by
        by_contra hlt
        push_neg at hlt
        rw [List.getElem?_append_left hlt] at hj
        have hmem := List.getElem?_mem hj
        have hno := trace_head_no_insert _ opj hmem
        rw [hij] at hno
        exact Bool.noConfusion hno
      have hilt : i < ([StoreOp.read] ++
          (run_total new_ipos ⟨existing_map current_data, [], []⟩).1.patches.map
            (fun p => StoreOp.patch p.1 p.2)).length := by
        by_contra hge
        push_neg at hge
        rw [List.getElem?_append_right hge] at hi
        have hmem := List.getElem?_mem hi
        have hno := trace_tail_no_patch _ _ opi hmem
        rw [hpi] at hno
        exact Bool.noConfusion hno
      exact Nat.lt_of_lt_of_le hilt hjlen

/-- Claim C10, witness run: one run issuing both a patch for Beta (position
1) and the batch insert of Gamma (position 2). -/
theorem c10_witness : (1 : Nat) < 2 :=
  c10_patch_before_insert [c10w_new_row, c10w_update_row] [c10w_sheet_row] 1 2
    (StoreOp.patch (Val.str "Beta") (clean_defaults c10w_update_row))
    (StoreOp.insert_many [clean_defaults c10w_new_row])
    (by decide) (by decide) (by decide) (by decide)

/-- The instrumented loop body computes the same result as the loop body,
with an outcome attached. -/
theorem process_record_eq_out (st : RState) (r : IpoRecord) :
    process_record st r = (process_record_out st r).map Prod.fst := by
  cases hm : st.map (name_key (clean_defaults r)) with
  | none => simp only [process_record, process_record_out, hm, Except.map]
  | some ex =>
    cases hu : needs_update ex (clean_defaults r) with
    | false =>
      simp only [process_record, process_record_out, hm, hu, Bool.false_eq_true, if_false,
        Except.map]
    | true =>
      cases hc : (clean_defaults r).company_name with
      | none => simp only [process_record, process_record_out, hm, hu, if_true, hc, Except.map]
      | some nm => simp only [process_record, process_record_out, hm, hu, if_true, hc, Except.map]

/-- The three possible shapes of one instrumented step: an insert extends
the row queue, a patch extends the patch list, a drop changes nothing, and
the recorded outcome matches the branch taken. -/
theorem process_record_out_shape (st : RState) (r : IpoRecord) (st1 : RState) (o : Outcome)
    (h : process_record_out st r = .ok (st1, o)) :
    (o = .inserted ∧ st1.rows_to_add = st.rows_to_add ++ [clean_defaults r] ∧
      st1.patches = st.patches) ∨
    (o = .patched ∧ st1.rows_to_add = st.rows_to_add ∧
      ∃ nm, st1.patches = st.patches ++ [(nm, clean_defaults r)]) ∨
    (o = .dropped ∧ st1 = st) := by
  cases hm : st.map (name_key (clean_defaults r)) with
  | none =>
    simp only [process_record_out, hm] at h
    cases h
    exact Or.inl ⟨rfl, rfl, rfl⟩
  | some ex =>
    cases hu : needs_update ex (clean_defaults r) with
    | false =>
      simp only [process_record_out, hm, hu, Bool.false_eq_true, if_false] at h
      cases h
      exact Or.inr (Or.inr ⟨rfl, rfl⟩)
    | true =>
      cases hc : (clean_defaults r).company_name with
      | none =>
        simp only [process_record_out, hm, hu, if_true, hc] at h
        exact Except.noConfusion h
      | some nm =>
        simp only [process_record_out, hm, hu, if_true, hc] at h
        cases h
        exact Or.inr (Or.inl ⟨rfl, rfl, nm, rfl⟩)

/-- A successful loop run is matched by the instrumented loop: one outcome
per record, with the inserted and patched counts measuring exactly the
growth of the row queue and the patch list. -/
theorem run_loop_out_spec (new_ipos : List IpoRecord) :
    ∀ st st2, run_loop new_ipos st = .ok st2 →
      ∃ os, run_loop_out new_ipos st = .ok (st2, os) ∧
        os.length = new_ipos.length ∧
        st2.rows_to_add.length = st.rows_to_add.length + os.count .inserted ∧
        st2.patches.length = st.patches.length + os.count .patched := by
  induction new_ipos with
  | nil =>
    intro st st2 h
    simp only [run_loop] at h
    cases h
    exact ⟨[], rfl, rfl, by simp, by simp⟩
  | cons r rest ih =>
    intro st st2 h
    simp only [run_loop] at h
    cases hpo : process_record_out st r with
    | error e =>
      rw [process_record_eq_out st r, hpo] at h
      simp only [Except.map] at h
      exact Except.noConfusion h
    | ok pair =>
      obtain ⟨st1, o⟩ := pair
      rw [process_record_eq_out st r, hpo] at h
      simp only [Except.map] at h
      obtain ⟨os, ho, hlen, hrows, hpat⟩ := ih st1 st2 h
      refine ⟨o :: os, ?_, ?_, ?_, ?_⟩
      · simp only [run_loop_out, hpo, ho]
      · simp [hlen]
      · rcases process_record_out_shape st r st1 o hpo with ⟨ho1, hr1, _⟩ |
          ⟨ho1, hr1, _, _⟩ | ⟨ho1, h1⟩
        · subst ho1
          rw [hrows, hr1]
          simp [List.count_cons]
          omega
        · subst ho1
          rw [hrows, hr1]
          simp [List.count_cons]
        · subst ho1
          subst h1
          rw [hrows]
          simp [List.count_cons]
      · rcases process_record_out_shape st r st1 o hpo with ⟨ho1, _, hp1⟩ |
          ⟨ho1, _, nm, hp1⟩ | ⟨ho1, h1⟩
        · subst ho1
          rw [hpat, hp1]
          simp [List.count_cons]
        · subst ho1
          rw [hpat, hp1]
          simp [List.count_cons]
          omega
        · subst ho1
          subst h1
          rw [hpat]
          simp [List.count_cons]

/-- Every outcome list splits its length across the three outcomes. -/
theorem outcome_count_partition (os : List Outcome) :
    os.count .inserted + os.count .patched + os.count .dropped = os.length := by
  induction os with
  | nil => rfl
  | cons o rest ih => cases o <;> simp [List.count_cons] <;> omega

/-- Claim C6 (amended): whenever the run completes without raising, the
loop assigns exactly one of the three outcomes — inserted, patched,
dropped — to each record of the batch: the instrumented loop produces one
outcome per record, the insert and patch lists have exactly the inserted
and patched counts, and the three counts partition the batch length. A run
that raises (see the C6 counterexample) assigns no outcomes at all. -/
theorem c6_partition (new_ipos current_data : List IpoRecord)
    (ins : List IpoRecord) (ps : List (Val × IpoRecord))
    (h : reconcile new_ipos current_data = .ok (ins, ps)) :
    ∃ st2 os, run_loop_out new_ipos ⟨existing_map current_data, [], []⟩ = .ok (st2, os) ∧
      st2.rows_to_add = ins ∧ st2.patches = ps ∧
      os.length = new_ipos.length ∧
      ins.length = os.count .inserted ∧
      ps.length = os.count .patched ∧
      os.count .inserted + os.count .patched + os.count .dropped = new_ipos.length := by
  unfold reconcile at h
  cases hr : run_loop new_ipos ⟨existing_map current_data, [], []⟩ with
  | error e =>
    rw [hr] at h
    exact Except.noConfusion h
  | ok st =>
    rw [hr] at h
    injection h with h
    have hins : ins = st.rows_to_add := (congrArg Prod.fst h).symm
    have hps : ps = st.patches := (congrArg Prod.snd h).symm
    obtain ⟨os, ho, hlen, hrows, hpat⟩ :=
      run_loop_out_spec new_ipos ⟨existing_map current_data, [], []⟩ st hr
    refine ⟨st, os, ho, hins.symm, hps.symm, hlen, ?_, ?_, ?_⟩
    · rw [hins]
      simpa using hrows
    · rw [hps]
      simpa using hpat
    · rw [outcome_count_partition os]
      exact hlen

/-- Claim C6, witness run: a successful singleton run partitions its one
record. -/
theorem c6_witness :
    ∃ st2 os, run_loop_out [c6w_row] ⟨existing_map [], [], []⟩ = .ok (st2, os) ∧
      st2.rows_to_add = [clean_defaults c6w_row] ∧ st2.patches = [] ∧
      os.length = [c6w_row].length ∧
      [clean_defaults c6w_row].length = os.count .inserted ∧
      ([] : List (Val × IpoRecord)).length = os.count .patched ∧
      os.count .inserted + os.count .patched + os.count .dropped = [c6w_row].length :=
  c6_partition [c6w_row] [] [clean_defaults c6w_row] [] (by decide)

/-! Lemmas for the idempotence analysis (claim C7). -/

/-- Folding dict insertions over rows looks up to the last row with the
requested key, falling back to the base dictionary. -/
theorem foldl_insert_lookup (rows : List IpoRecord) :
    ∀ (m : StrMap) (k : String),
      (rows.foldl (fun m2 row => map_insert m2 (name_key row) row) m) k =
        match last_keyed rows k with
        | some r => some r
        | none => m k := by
  induction rows with
  | nil => intro m k; rfl
  | cons row rest ih =>
    intro m k
    rw [List.foldl_cons, ih]
    cases hrest : last_keyed rest k with
    | some r => simp only [last_keyed, hrest]
    | none =>
      simp only [last_keyed, hrest]
      by_cases hk : name_key row = k
      · simp only [hk, if_pos rfl, map_insert, if_pos]
      · have hk2 : ¬ (k = name_key row) := fun h2 => hk h2.symm
        simp only [map_insert, if_neg hk, if_neg hk2]

/-- The built lookup is the last row with the key, when one exists. -/
theorem existing_map_eq_last_keyed (rows : List IpoRecord) (k : String) :
    existing_map rows k = last_keyed rows k := by
  unfold existing_map
  rw [foldl_insert_lookup]
  cases last_keyed rows k <;> rfl

/-- One unfolding step of the last-row lookup. -/
theorem last_keyed_cons (row : IpoRecord) (rest : List IpoRecord) (k : String) :
    last_keyed (row :: rest) k =
      match last_keyed rest k with
      | some r => some r
      | none => if name_key row = k then some row else none := rfl

/-- Looking up the last row with a key across an append searches the right
part first. -/
theorem last_keyed_append (a b : List IpoRecord) (k : String) :
    last_keyed (a ++ b) k =
      match last_keyed b k with
      | some x => some x
      | none => last_keyed a k := by
  induction a with
  | nil =>
    simp only [List.nil_append]
    cases last_keyed b k <;> rfl
  | cons row rest ih =>
    rw [List.cons_append, last_keyed_cons, ih, last_keyed_cons]
    cases last_keyed b k with
    | some x => rfl
    | none => rfl

/-- Mapping a key-preserving function over rows commutes with the last-row
lookup. -/
theorem last_keyed_map (f : IpoRecord → IpoRecord)
    (hf : ∀ row, name_key (f row) = name_key row) (rows : List IpoRecord) (k : String) :
    last_keyed (rows.map f) k = (last_keyed rows k).map f := by
  induction rows with
  | nil => rfl
  | cons row rest ih =>
    simp only [List.map_cons, last_keyed, ih]
    cases last_keyed rest k with
    | some x => rfl
    | none =>
      simp only [Option.map_none, hf row]
      by_cases hk : name_key row = k
      · simp [hk]
      · simp [hk]

/-- A list with no row carrying the key has no last row with the key. -/
theorem last_keyed_of_no_key (rows : List IpoRecord) (k : String)
    (h : ∀ row ∈ rows, name_key row ≠ k) : last_keyed rows k = none := by
  induction rows with
  | nil => rfl
  | cons row rest ih =>
    have hrest : last_keyed rest k = none := ih (fun x hx => h x (by simp [hx]))
    simp only [last_keyed, hrest]
    rw [if_neg (h row (by simp))]

/-- The last row with a key does carry the key. -/
theorem last_keyed_name_key (rows : List IpoRecord) (k : String) (x : IpoRecord) :
    last_keyed rows k = some x → name_key x = k := by
  induction rows with
  | nil => intro h; exact Option.noConfusion h
  | cons row rest ih =>
    intro h
    simp only [last_keyed] at h
    cases hrest : last_keyed rest k with
    | some r =>
      rw [hrest] at h
      cases h
      exact ih hrest
    | none =>
      rw [hrest] at h
      by_cases hk : name_key row = k
      · rw [if_pos hk] at h
        cases h
        exact hk
      · rw [if_neg hk] at h
        exact Option.noConfusion h

/-- The target key of a patch built from a cleaned record is exactly that
record's normalized name. -/
theorem patch_key_clean (r : IpoRecord) :
    patch_key ((clean_defaults r).company_name.getD (.str "")) = name_key r := rfl

/-- Merging a patch body whose name is present renames the row to the
body's name, so the row keeps the patch target key. -/
theorem name_key_merge_row (row upd : IpoRecord) (nm : Val)
    (h : upd.company_name = some nm) :
    name_key (merge_row row upd) = patch_key nm := by
  unfold name_key merge_row upd_field patch_key
  rw [h]
  rfl

/-- Applying a well-formed patch list never changes a row's normalized
key. -/
theorem patch_row_key (ps : List (Val × IpoRecord))
    (hwf : ∀ p ∈ ps, p.2.company_name = some p.1) :
    ∀ row, name_key (patch_row ps row) = name_key row := by
  induction ps with
  | nil => intro row; rfl
  | cons p rest ih =>
    intro row
    have hwf2 : ∀ q ∈ rest, q.2.company_name = some q.1 := fun q hq => hwf q (by simp [hq])
    unfold patch_row
    rw [List.foldl_cons]
    by_cases hk : name_key row = patch_key p.1
    · rw [if_pos hk]
      have h2 := ih hwf2 (merge_row row p.2)
      unfold patch_row at h2
      rw [h2, name_key_merge_row row p.2 p.1 (hwf p (by simp)), hk]
    · rw [if_neg hk]
      have h2 := ih hwf2 row
      unfold patch_row at h2
      rw [h2]

/-- A row whose key no patch targets is untouched by the patch list. -/
theorem patch_row_no_match (ps : List (Val × IpoRecord)) :
    ∀ row, (∀ p ∈ ps, patch_key p.1 ≠ name_key row) → patch_row ps row = row := by
  induction ps with
  | nil => intro row _; rfl
  | cons p rest ih =>
    intro row h
    unfold patch_row
    rw [List.foldl_cons]
    have hk : ¬ (name_key row = patch_key p.1) :=
      fun h2 => h p (by simp) h2.symm
    rw [if_neg hk]
    exact ih row (fun q hq => h q (by simp [hq]))

/-- When the patch keys are pairwise distinct and exactly one patch targets
the row's key, applying the list is merging that one patch body. -/
theorem patch_row_unique_match (ps : List (Val × IpoRecord))
    (hwf : ∀ p ∈ ps, p.2.company_name = some p.1)
    (hdist : List.Pairwise (fun p q => patch_key p.1 ≠ patch_key q.1) ps) :
    ∀ row p0, p0 ∈ ps → patch_key p0.1 = name_key row →
      patch_row ps row = merge_row row p0.2 := by
  induction ps with
  | nil => intro row p0 h0; exact absurd h0 (List.not_mem_nil p0)
  | cons p rest ih =>
    intro row p0 h0 hkey
    have hwf2 : ∀ q ∈ rest, q.2.company_name = some q.1 := fun q hq => hwf q (by simp [hq])
    have hd1 : ∀ q ∈ rest, patch_key p.1 ≠ patch_key q.1 := (List.pairwise_cons.mp hdist).1
    have hd2 := (List.pairwise_cons.mp hdist).2
    rcases List.mem_cons.mp h0 with h1 | h1
    · subst h1
      unfold patch_row
      rw [List.foldl_cons, if_pos hkey.symm]
      have hnm := name_key_merge_row row p0.2 p0.1 (hwf p0 (by simp))
      have hnone := patch_row_no_match rest (merge_row row p0.2)
        (fun q hq => by rw [hnm, hkey]; exact fun h3 => hd1 q hq (by rw [h3, hkey]))
      unfold patch_row at hnone
      exact hnone
    · have hk : ¬ (name_key row = patch_key p.1) := by
        intro h2
        exact hd1 p0 h1 (by rw [h2.symm, hkey])
      unfold patch_row
      rw [List.foldl_cons, if_neg hk]
      have h3 := ih hwf2 hd2 row p0 h1 hkey
      unfold patch_row at h3
      exact h3

/-- Unfolding the insert formula over a batch head. -/
theorem ins_of_cons (m : StrMap) (r : IpoRecord) (rest : List IpoRecord) :
    ins_of m (r :: rest) =
      if (m (name_key r)).isNone then clean_defaults r :: ins_of m rest
      else ins_of m rest := by
  unfold ins_of
  rw [List.filter_cons]
  split <;> simp

/-- Unfolding the patch formula over a batch head. -/
theorem pat_of_cons (m : StrMap) (r : IpoRecord) (rest : List IpoRecord) :
    pat_of m (r :: rest) =
      if upd_case m r then
        ((clean_defaults r).company_name.getD (.str ""), clean_defaults r) :: pat_of m rest
      else pat_of m rest := by
  unfold pat_of
  rw [List.filter_cons]
  split <;> simp

/-- The insert formula only reads the lookup at the batch keys. -/
theorem ins_of_congr (m1 m2 : StrMap) (l : List IpoRecord)
    (h : ∀ r ∈ l, m1 (name_key r) = m2 (name_key r)) :
    ins_of m1 l = ins_of m2 l := by
  unfold ins_of
  rw [List.filter_congr (fun a ha => by rw [h a ha])]

/-- The update test only reads the lookup at the record's key. -/
theorem upd_case_congr (m1 m2 : StrMap) (r : IpoRecord)
    (h : m1 (name_key r) = m2 (name_key r)) :
    upd_case m1 r = upd_case m2 r := by
  unfold upd_case
  rw [h]

/-- The patch formula only reads the lookup at the batch keys. -/
theorem pat_of_congr (m1 m2 : StrMap) (l : List IpoRecord)
    (h : ∀ r ∈ l, m1 (name_key r) = m2 (name_key r)) :
    pat_of m1 l = pat_of m2 l := by
  unfold pat_of
  rw [List.filter_congr (fun a ha => upd_case_congr m1 m2 a (h a ha))]

/-- Under pairwise distinct batch keys every record is processed against
the initial lookup: a successful run appends exactly the formula inserts
and formula patches computed from the initial lookup, and every patched
record carries a company name. -/
theorem run_loop_spec_distinct (new_ipos : List IpoRecord) :
    ∀ st st2, run_loop new_ipos st = .ok st2 → distinct_keys new_ipos →
      st2.rows_to_add = st.rows_to_add ++ ins_of st.map new_ipos ∧
      st2.patches = st.patches ++ pat_of st.map new_ipos ∧
      (∀ r ∈ new_ipos, upd_case st.map r = true →
        (clean_defaults r).company_name ≠ none) := by
  induction new_ipos with
  | nil =>
    intro st st2 h _
    simp only [run_loop] at h
    cases h
    refine ⟨by simp [ins_of], by simp [pat_of], by simp⟩
  | cons r rest ih =>
    intro st st2 h hdist
    have hhead : ∀ b ∈ rest, name_key r ≠ name_key b := (List.pairwise_cons.mp hdist).1
    have hrest : distinct_keys rest := (List.pairwise_cons.mp hdist).2
    simp only [run_loop] at h
    cases hm : st.map (name_key r) with
    | none =>
      have hm2 : st.map (name_key (clean_defaults r)) = none := by
        rw [clean_name_key]; exact hm
      have hpr : process_record st r =
          .ok ⟨map_insert st.map (name_key (clean_defaults r)) (clean_defaults r),
               st.rows_to_add ++ [clean_defaults r], st.patches⟩ := by
        simp only [process_record, hm2]
      rw [hpr] at h
      obtain ⟨h1, h2, h3⟩ := ih _ st2 h hrest
      have hcong : ∀ x ∈ rest,
          (map_insert st.map (name_key (clean_defaults r)) (clean_defaults r))
            (name_key x) = st.map (name_key x) := by
        intro x hx
        unfold map_insert
        rw [clean_name_key]
        rw [if_neg (fun h4 => hhead x hx h4.symm)]
      refine ⟨?_, ?_, ?_⟩
      · rw [h1]
        dsimp only
        rw [ins_of_congr _ _ rest hcong, ins_of_cons, if_pos (by rw [hm]; rfl)]
        rw [List.append_assoc]
        rfl
      · rw [h2]
        dsimp only
        rw [pat_of_congr _ _ rest hcong, pat_of_cons,
          if_neg (by unfold upd_case; rw [hm]; exact Bool.false_ne_true)]
      · intro x hx hu
        rcases List.mem_cons.mp hx with h5 | h5
        · subst h5
          unfold upd_case at hu
          rw [hm] at hu
          exact absurd hu Bool.false_ne_true
        · refine h3 x h5 ?_
          show upd_case (map_insert st.map (name_key (clean_defaults r)) (clean_defaults r))
            x = true
          rw [upd_case_congr _ _ x (hcong x h5)]
          exact hu
    | some ex =>
      have hm2 : st.map (name_key (clean_defaults r)) = some ex := by
        rw [clean_name_key]; exact hm
      cases hu : needs_update ex (clean_defaults r) with
      | false =>
        have hpr : process_record st r = .ok st := by
          simp only [process_record, hm2, hu, Bool.false_eq_true, if_false]
        rw [hpr] at h
        obtain ⟨h1, h2, h3⟩ := ih st st2 h hrest
        refine ⟨?_, ?_, ?_⟩
        · rw [h1, ins_of_cons, if_neg (by rw [hm]; exact Bool.false_ne_true)]
        · rw [h2, pat_of_cons, if_neg (by unfold upd_case; rw [hm]; simp [hu])]
        · intro x hx hux
          rcases List.mem_cons.mp hx with h5 | h5
          · subst h5
            unfold upd_case at hux
            rw [hm] at hux
            simp [hu] at hux
          · exact h3 x h5 hux
      | true =>
        cases hc : (clean_defaults r).company_name with
        | none =>
          have hpr : process_record st r = .error "KeyError: company_name" := by
            simp only [process_record, hm2, hu, if_true, hc]
          rw [hpr] at h
          exact Except.noConfusion h
        | some nm =>
          have hpr : process_record st r =
              .ok ⟨st.map, st.rows_to_add, st.patches ++ [(nm, clean_defaults r)]⟩ := by
            simp only [process_record, hm2, hu, if_true, hc]
          rw [hpr] at h
          obtain ⟨h1, h2, h3⟩ := ih _ st2 h hrest
          refine ⟨?_, ?_, ?_⟩
          · rw [h1]
            dsimp only
            rw [ins_of_cons, if_neg (by rw [hm]; exact Bool.false_ne_true)]
          · rw [h2]
            dsimp only
            rw [pat_of_cons, if_pos (by unfold upd_case; rw [hm]; simp [hu])]
            rw [List.append_assoc, hc]
            rfl
          · intro x hx hux
            rcases List.mem_cons.mp hx with h5 | h5
            · subst h5
              rw [hc]
              exact fun h6 => Option.noConfusion h6
            · exact h3 x h5 hux

/-- Every formula insert is the cleaned version of a batch record whose key
the lookup does not know. -/
theorem ins_of_mem (m : StrMap) (l : List IpoRecord) (y : IpoRecord)
    (hy : y ∈ ins_of m l) :
    ∃ x, x ∈ l ∧ (m (name_key x)).isNone = true ∧ y = clean_defaults x := by
  unfold ins_of at hy
  obtain ⟨x, hx, hxy⟩ := List.mem_map.mp hy
  obtain ⟨hxl, hxf⟩ := List.mem_filter.mp hx
  exact ⟨x, hxl, hxf, hxy.symm⟩

/-- No formula insert carries a key foreign to the batch. -/
theorem last_keyed_ins_of_no_key (m : StrMap) (l : List IpoRecord) (k : String)
    (h : ∀ x ∈ l, name_key x ≠ k) : last_keyed (ins_of m l) k = none := by
  apply last_keyed_of_no_key
  intro y hy
  obtain ⟨x, hxl, _, hxy⟩ := ins_of_mem m l y hy
  rw [hxy, clean_name_key]
  exact h x hxl

/-- Under distinct batch keys, the formula inserts hold exactly one row
with the key of an inserted record: its cleaned version. -/
theorem last_keyed_ins_of_self (m : StrMap) (r : IpoRecord) :
    ∀ l : List IpoRecord, distinct_keys l → r ∈ l → (m (name_key r)).isNone = true →
      last_keyed (ins_of m l) (name_key r) = some (clean_defaults r) := by
  intro l
  induction l with
  | nil => intro _ hr; exact absurd hr (List.not_mem_nil r)
  | cons a rest ih =>
    intro hdist hr hm
    have hhead : ∀ b ∈ rest, name_key a ≠ name_key b := (List.pairwise_cons.mp hdist).1
    have hrest : distinct_keys rest := (List.pairwise_cons.mp hdist).2
    rcases List.mem_cons.mp hr with h1 | h1
    · subst h1
      rw [ins_of_cons, if_pos hm, last_keyed_cons,
        last_keyed_ins_of_no_key m rest _ (fun x hx h2 => hhead x hx h2.symm)]
      rw [clean_name_key]
      simp
    · rw [ins_of_cons]
      by_cases ha : (m (name_key a)).isNone = true
      · rw [if_pos ha, last_keyed_cons, ih hrest h1 hm]
      · rw [if_neg ha]
        exact ih hrest h1 hm

/-- Under distinct batch keys, the formula inserts hold no row with the key
of a record that collided. -/
theorem last_keyed_ins_of_absent (m : StrMap) (r : IpoRecord) :
    ∀ l : List IpoRecord, distinct_keys l → r ∈ l → (m (name_key r)).isNone = false →
      last_keyed (ins_of m l) (name_key r) = none := by
  intro l
  induction l with
  | nil => intro _ hr; exact absurd hr (List.not_mem_nil r)
  | cons a rest ih =>
    intro hdist hr hm
    have hhead : ∀ b ∈ rest, name_key a ≠ name_key b := (List.pairwise_cons.mp hdist).1
    have hrest : distinct_keys rest := (List.pairwise_cons.mp hdist).2
    rcases List.mem_cons.mp hr with h1 | h1
    · subst h1
      rw [ins_of_cons, if_neg (by rw [hm]; exact Bool.false_ne_true)]
      exact last_keyed_ins_of_no_key m rest _ (fun x hx h2 => hhead x hx h2.symm)
    · rw [ins_of_cons]
      by_cases ha : (m (name_key a)).isNone = true
      · rw [if_pos ha, last_keyed_cons, ih hrest h1 hm]
        rw [clean_name_key]
        rw [if_neg (hhead r h1)]
      · rw [if_neg ha]
        exact ih hrest h1 hm

/-- Every formula patch comes from a batch record in the update case. -/
theorem pat_of_mem (m : StrMap) (l : List IpoRecord) (p : Val × IpoRecord)
    (hp : p ∈ pat_of m l) :
    ∃ x, x ∈ l ∧ upd_case m x = true ∧
      p = ((clean_defaults x).company_name.getD (.str ""), clean_defaults x) := by
  unfold pat_of at hp
  obtain ⟨x, hx, hxp⟩ := List.mem_map.mp hp
  obtain ⟨hxl, hxf⟩ := List.mem_filter.mp hx
  exact ⟨x, hxl, hxf, hxp.symm⟩

/-- A batch record in the update case contributes its formula patch. -/
theorem pat_of_mem_of_case (m : StrMap) (l : List IpoRecord) (r : IpoRecord)
    (hr : r ∈ l) (hu : upd_case m r = true) :
    ((clean_defaults r).company_name.getD (.str ""), clean_defaults r) ∈ pat_of m l := by
  unfold pat_of
  exact List.mem_map_of_mem _ (List.mem_filter.mpr ⟨hr, hu⟩)

/-- Under distinct batch keys, no formula patch targets the key of a record
outside the update case. -/
theorem pat_of_no_key (m : StrMap) (r : IpoRecord) :
    ∀ l : List IpoRecord, distinct_keys l → r ∈ l → upd_case m r = false →
      ∀ p ∈ pat_of m l, patch_key p.1 ≠ name_key r := by
  intro l
  induction l with
  | nil => intro _ hr; exact absurd hr (List.not_mem_nil r)
  | cons a rest ih =>
    intro hdist hr hu p hp
    have hhead : ∀ b ∈ rest, name_key a ≠ name_key b := (List.pairwise_cons.mp hdist).1
    rcases List.mem_cons.mp hr with h1 | h1
    · subst h1
      rw [pat_of_cons, if_neg (by rw [hu]; exact Bool.false_ne_true)] at hp
      obtain ⟨x, hxl, _, hxp⟩ := pat_of_mem m rest p hp
      rw [hxp, patch_key_clean]
      exact fun h2 => hhead x hxl h2.symm
    · rw [pat_of_cons] at hp
      by_cases ha : upd_case m a = true
      · rw [if_pos ha] at hp
        rcases List.mem_cons.mp hp with h2 | h2
        · rw [h2, patch_key_clean]
          exact hhead r h1
        · exact ih (List.pairwise_cons.mp hdist).2 h1 hu p h2
      · rw [if_neg ha] at hp
        exact ih (List.pairwise_cons.mp hdist).2 h1 hu p hp

/-- Under distinct batch keys the formula patches carry pairwise distinct
target keys. -/
theorem pat_of_pairwise (m : StrMap) (l : List IpoRecord) (hdist : distinct_keys l) :
    List.Pairwise (fun p q => patch_key p.1 ≠ patch_key q.1) (pat_of m l) := by
  unfold pat_of
  rw [List.pairwise_map]
  refine (List.Pairwise.filter _ hdist).imp ?_
  intro a b hab
  rw [patch_key_clean, patch_key_clean]
  exact hab

/-- When every update-case record carries a company name, every formula
patch body names its target. -/
theorem pat_of_wf (m : StrMap) (l : List IpoRecord)
    (hcn : ∀ r ∈ l, upd_case m r = true → (clean_defaults r).company_name ≠ none) :
    ∀ p ∈ pat_of m l, p.2.company_name = some p.1 := by
  intro p hp
  obtain ⟨x, hxl, hux, hxp⟩ := pat_of_mem m l p hp
  cases hc : (clean_defaults x).company_name with
  | none => exact absurd hc (hcn x hxl hux)
  | some nm =>
    rw [hxp]
    simp [hc]

/-- A batch whose every record collides without triggering is a complete
no-op for the loop. -/
theorem run_loop_all_dropped (new_ipos : List IpoRecord) :
    ∀ st : RState,
      (∀ r ∈ new_ipos, ∃ ex, st.map (name_key r) = some ex ∧
        needs_update ex (clean_defaults r) = false) →
      run_loop new_ipos st = .ok st := by
  induction new_ipos with
  | nil => intro st _; rfl
  | cons r rest ih =>
    intro st h
    obtain ⟨ex, hm, hu⟩ := h r (by simp)
    have hm2 : st.map (name_key (clean_defaults r)) = some ex := by
      rw [clean_name_key]; exact hm
    have hpr : process_record st r = .ok st := by
      simp only [process_record, hm2, hu, Bool.false_eq_true, if_false]
    simp only [run_loop, hpr]
    exact ih st (fun x hx => h x (by simp [hx]))

/-- Claim C7 (amended): idempotence holds for batches whose records carry
pairwise distinct normalized keys. If the first call succeeds with
(inserts, patches) and the store is updated to reflect them — the issued
patches applied, the inserted rows appended — then running the same batch
against the updated store yields no inserts and no patches. With duplicate
keys inside one batch idempotence can fail (see the C7 counterexample),
because a patch body is the whole new record and can push a placeholder
over a real stored value, re-arming the trigger. -/
theorem c7_amended (new_ipos current_data : List IpoRecord)
    (ins : List IpoRecord) (ps : List (Val × IpoRecord))
    (hdist : distinct_keys new_ipos)
    (h : reconcile new_ipos current_data = .ok (ins, ps)) :
    reconcile new_ipos (apply_patches current_data ps ++ ins) = .ok ([], []) := by
  unfold reconcile at h
  cases hr : run_loop new_ipos ⟨existing_map current_data, [], []⟩ with
  | error e => rw [hr] at h; exact Except.noConfusion h
  | ok st =>
    rw [hr] at h
    injection h with h
    have hins : ins = st.rows_to_add := (congrArg Prod.fst h).symm
    have hps : ps = st.patches := (congrArg Prod.snd h).symm
    obtain ⟨h1, h2, h3⟩ := run_loop_spec_distinct new_ipos _ st hr hdist
    have hins2 : ins = ins_of (existing_map current_data) new_ipos := by
      rw [hins, h1]
      simp
    have hps2 : ps = pat_of (existing_map current_data) new_ipos := by
      rw [hps, h2]
      simp
    have hcn : ∀ r ∈ new_ipos, upd_case (existing_map current_data) r = true →
        (clean_defaults r).company_name ≠ none := h3
    have hwf : ∀ p ∈ ps, p.2.company_name = some p.1 := by
      rw [hps2]
      exact pat_of_wf _ _ hcn
    have hpair : List.Pairwise (fun p q => patch_key p.1 ≠ patch_key q.1) ps := by
      rw [hps2]
      exact pat_of_pairwise _ _ hdist
    have hdropped : ∀ r ∈ new_ipos,
        ∃ ex2, existing_map (apply_patches current_data ps ++ ins) (name_key r) = some ex2 ∧
          needs_update ex2 (clean_defaults r) = false := by
      intro r hrN
      cases hm : existing_map current_data (name_key r) with
      | none =>
        have hlk : last_keyed ins (name_key r) = some (clean_defaults r) := by
          rw [hins2]
          exact last_keyed_ins_of_self _ r new_ipos hdist hrN (by rw [hm]; rfl)
        refine ⟨clean_defaults r, ?_, needs_update_self _⟩
        rw [existing_map_eq_last_keyed, last_keyed_append, hlk]
      | some ex =>
        have hlk : last_keyed ins (name_key r) = none := by
          rw [hins2]
          exact last_keyed_ins_of_absent _ r new_ipos hdist hrN (by rw [hm]; rfl)
        have hle : last_keyed current_data (name_key r) = some ex := by
          rw [← existing_map_eq_last_keyed]
          exact hm
        have happ : last_keyed (apply_patches current_data ps) (name_key r) =
            some (patch_row ps ex) := by
          unfold apply_patches
          rw [last_keyed_map (patch_row ps) (patch_row_key ps hwf), hle]
          rfl
        have hkex : name_key ex = name_key r := last_keyed_name_key current_data _ ex hle
        cases hu : needs_update ex (clean_defaults r) with
        | true =>
          have hucase : upd_case (existing_map current_data) r = true := by
            unfold upd_case
            rw [hm]
            exact hu
          have hpmem : ((clean_defaults r).company_name.getD (.str ""), clean_defaults r) ∈ ps := by
            rw [hps2]
            exact pat_of_mem_of_case _ _ r hrN hucase
          have hkey : patch_key ((clean_defaults r).company_name.getD (.str "")) =
              name_key ex := by
            rw [patch_key_clean, hkex]
          have hprow : patch_row ps ex = merge_row ex (clean_defaults r) :=
            patch_row_unique_match ps hwf hpair ex _ hpmem hkey
          refine ⟨merge_row ex (clean_defaults r), ?_, ?_⟩
          · rw [existing_map_eq_last_keyed, last_keyed_append, hlk, happ, hprow]
          · exact needs_update_merge_row ex _ (clean_price_band_high_ne_none r)
        | false =>
          have hucase : upd_case (existing_map current_data) r = false := by
            unfold upd_case
            rw [hm]
            exact hu
          have hnok : ∀ p ∈ ps, patch_key p.1 ≠ name_key r := by
            rw [hps2]
            exact pat_of_no_key _ r new_ipos hdist hrN hucase
          have hprow : patch_row ps ex = ex := by
            apply patch_row_no_match
            intro p hp
            rw [hkex]
            exact hnok p hp
          refine ⟨ex, ?_, hu⟩
          rw [existing_map_eq_last_keyed, last_keyed_append, hlk, happ, hprow]
    have hdone := run_loop_all_dropped new_ipos
      ⟨existing_map (apply_patches current_data ps ++ ins), [], []⟩ hdropped
    unfold reconcile
    rw [hdone]

/-- Claim C7, witness run: a distinct-key batch against an empty store — a
single insert — is a no-op the second time. -/
theorem c7_witness :
    reconcile [c7w_row] (apply_patches [] [] ++ [clean_defaults c7w_row]) = .ok ([], []) :=
  c7_amended [c7w_row] [] [clean_defaults c7w_row] []
    (by simp [distinct_keys]) (by decide)
